import Mathlib

/-!
Verification of the PlanSync task manager (`src/main.rs`).

The Rust program keeps an in-memory `TaskManager` (a vector of tasks and a
`next_id` counter), mutated by an interactive loop and persisted as JSON via
serde.  We embed the core shallowly: strings are Lean `String`s and the Rust
`str` operations (`split`, `trim`, `to_lowercase`, `contains`, `is_empty`)
are modelled as functions on the underlying character lists; `chrono`
`NaiveDate` is a year/month/day record ordered lexicographically, with the
ISO `%Y-%m-%d` parsing and printing that the program uses; the serde JSON
layer is modelled on a JSON value AST (the text printing/parsing of
`serde_json` is treated as the identity correspondence on that AST), and the
filesystem read seen by `load` is an `Option (Except String Json)` — `none`
for a missing file, `.error` for a failed read, `.ok` for successfully read
contents.
-/

namespace PlanSync

/-! ## Character-list string operations (Rust `str` methods) -/

/-- Rust `str::starts_with` on character lists: first argument is the
pattern, second the text. -/
def startsWithList : List Char → List Char → Bool
  | [], _ => true
  | _ :: _, [] => false
  | p :: ps, c :: cs => p == c && startsWithList ps cs

/-- Rust `str::contains(pat)` (substring test) on character lists:
`containsList hay pat`. -/
def containsList : List Char → List Char → Bool
  | [], pat => pat.isEmpty
  | c :: cs, pat => startsWithList pat (c :: cs) || containsList cs pat

/-- Rust `str::to_lowercase` (restricted to its ASCII action, which is all
the program relies on), as a whole-string map. -/
def toLowerStr (s : String) : String := ⟨s.data.map Char.toLower⟩

/-- Rust `str::trim`: drop whitespace from both ends. -/
def trimChars (cs : List Char) : List Char :=
  ((cs.dropWhile Char.isWhitespace).reverse.dropWhile Char.isWhitespace).reverse

/-- Rust `str::split(sep)`: split at every occurrence of the separator;
`n` separators yield `n + 1` pieces, so the empty string yields `[[]]`. -/
def splitList (sep : Char) : List Char → List (List Char)
  | [] => [[]]
  | c :: cs =>
    if c == sep then [] :: splitList sep cs
    else
      match splitList sep cs with
      | [] => [[c]]
      | p :: ps => (c :: p) :: ps

/-- Rust `String::is_empty`, read off the character list. -/
def strIsEmpty (s : String) : Bool := s.data.isEmpty

/-- The tag-normalisation pipeline the program applies to the user's
comma-separated tag input, in both `main` (task creation) and `edit_task`:
`s.split(',').map(|t| t.trim().to_lowercase()).filter(|t| !t.is_empty())`. -/
def normalizeTags (s : String) : List String :=
  (((splitList ',' s.data).map (fun cs => String.mk ((trimChars cs).map Char.toLower))).filter
    (fun t => ! strIsEmpty t))

/-! ## Decimal numerals (for the `%Y-%m-%d` date format) -/

/-- The decimal digit character for `n < 10`. -/
def digitChar (n : Nat) : Char :=
  match n with
  | 0 => '0' | 1 => '1' | 2 => '2' | 3 => '3' | 4 => '4'
  | 5 => '5' | 6 => '6' | 7 => '7' | 8 => '8' | _ => '9'

/-- Decimal digits of `n`, most significant first. -/
def toDigits (n : Nat) : List Char :=
  if h : n < 10 then [digitChar n]
  else toDigits (n / 10) ++ [digitChar (n % 10)]
  decreasing_by exact Nat.div_lt_self (by omega) (by omega)

/-- Numeric value of a digit character. -/
def digitVal (c : Char) : Nat := c.toNat - 48

/-- Parse a non-empty all-digit character list as a decimal number. -/
def parseNatList (cs : List Char) : Option Nat :=
  if cs.isEmpty || cs.any (fun c => ! c.isDigit) then none
  else some (cs.foldl (fun a c => a * 10 + digitVal c) 0)

/-- Zero-pad the decimal numeral of `n` on the left to width `w` (the
behaviour of chrono's padded numeric format fields). -/
def padNum (w n : Nat) : List Char :=
  List.replicate (w - (toDigits n).length) '0' ++ toDigits n

/-! ## Dates (`chrono::NaiveDate` as used by the program) -/

/-- A calendar date, as the program's `chrono::NaiveDate` values: year,
month, day.  (The model restricts years to naturals; the program never
manipulates negative years.) -/
structure NaiveDate where
  year : Nat
  month : Nat
  day : Nat
deriving DecidableEq, Repr

/-- Leap-year rule (Gregorian). -/
def isLeap (y : Nat) : Bool := y % 4 == 0 && (y % 100 != 0 || y % 400 == 0)

/-- Number of days in a month. -/
def daysInMonth (y m : Nat) : Nat :=
  if m == 2 then (if isLeap y then 29 else 28)
  else if m == 4 || m == 6 || m == 9 || m == 11 then 30
  else 31

/-- A date that `chrono` would accept: month in range and day in range for
that month. -/
def NaiveDate.Valid (d : NaiveDate) : Prop :=
  1 ≤ d.month ∧ d.month ≤ 12 ∧ 1 ≤ d.day ∧ d.day ≤ daysInMonth d.year d.month

instance (d : NaiveDate) : Decidable d.Valid := by
  unfold NaiveDate.Valid; exact inferInstance

/-- The `<` order on `chrono::NaiveDate`: lexicographic on
(year, month, day). -/
def NaiveDate.lt (a b : NaiveDate) : Prop :=
  a.year < b.year ∨
    (a.year = b.year ∧ (a.month < b.month ∨ (a.month = b.month ∧ a.day < b.day)))

instance (a b : NaiveDate) : Decidable (NaiveDate.lt a b) := by
  unfold NaiveDate.lt; exact inferInstance

/-- Printing a date in the `%Y-%m-%d` format chrono uses for `NaiveDate`
display and serde serialisation: year zero-padded to four digits, month and
day to two. -/
def dateStr (d : NaiveDate) : String :=
  ⟨padNum 4 d.year ++ '-' :: padNum 2 d.month ++ '-' :: padNum 2 d.day⟩

/-- Parsing a `YYYY-MM-DD` string as `chrono` does for
`NaiveDate::parse_from_str(s, "%Y-%m-%d")` and `str::parse::<NaiveDate>()`:
three dash-separated decimal components forming a calendar-valid date.
The empty string has a single empty component and therefore fails. -/
def parseDate (s : String) : Option NaiveDate :=
  match splitList '-' s.data with
  | [ys, ms, ds] =>
    match parseNatList ys, parseNatList ms, parseNatList ds with
    | some y, some m, some d =>
      if NaiveDate.Valid ⟨y, m, d⟩ then some ⟨y, m, d⟩ else none
    | _, _, _ => none
  | _ => none

/-! ## The data model (`struct Task`, `struct TaskManager`) -/

/-- `struct Task` from `src/main.rs` (`usize` ids become `Nat`). -/
structure Task where
  id : Nat
  description : String
  completed : Bool
  tags : List String
  due_date : Option NaiveDate
deriving DecidableEq, Repr

/-- `struct TaskManager` from `src/main.rs`. -/
structure TaskManager where
  tasks : List Task
  next_id : Nat
deriving DecidableEq, Repr

/-- `TaskManager::new`. -/
def TaskManager.new : TaskManager := { tasks := [], next_id := 1 }

/-- `TaskManager::add_task`: `self.tasks.push(task)`. -/
def TaskManager.add_task (m : TaskManager) (t : Task) : TaskManager :=
  { m with tasks := m.tasks ++ [t] }

/-- Body of `TaskManager::complete_task`: find the first task with the given
id, set its `completed` flag, return it; first component is the returned
`Option<&Task>` value, second the updated task vector. -/
def completeAux (id : Nat) : List Task → Option Task × List Task
  | [] => (none, [])
  | t :: ts =>
    if t.id = id then
      (some { t with completed := true }, { t with completed := true } :: ts)
    else
      ((completeAux id ts).1, t :: (completeAux id ts).2)

/-- `TaskManager::complete_task` (the `&mut self` method as a state
transformer: result value paired with the updated manager). -/
def TaskManager.complete_task (m : TaskManager) (id : Nat) :
    Option Task × TaskManager :=
  ((completeAux id m.tasks).1, { m with tasks := (completeAux id m.tasks).2 })

/-- Body of `TaskManager::delete_task`: `position` of the first task with the
given id, `remove` it in place (shifting the tail left, so relative order is
kept). -/
def deleteAux (id : Nat) : List Task → Option Task × List Task
  | [] => (none, [])
  | t :: ts =>
    if t.id = id then (some t, ts)
    else ((deleteAux id ts).1, t :: (deleteAux id ts).2)

/-- `TaskManager::delete_task` as a state transformer. -/
def TaskManager.delete_task (m : TaskManager) (id : Nat) :
    Option Task × TaskManager :=
  ((deleteAux id m.tasks).1, { m with tasks := (deleteAux id m.tasks).2 })

/-- Body of `TaskManager::edit_task`: find the first task with the given id
and overwrite its description, due date (`due.parse::<NaiveDate>().ok()` —
the empty prompt answer parses to `none`) and tags (re-normalised).  The
interactive prompt answers become the `desc`, `due`, `tg` parameters. -/
def editAux (id : Nat) (desc due tg : String) : List Task → Option Task × List Task
  | [] => (none, [])
  | t :: ts =>
    if t.id = id then
      (some { t with description := desc, due_date := parseDate due,
                     tags := normalizeTags tg },
       { t with description := desc, due_date := parseDate due,
                tags := normalizeTags tg } :: ts)
    else
      ((editAux id desc due tg ts).1, t :: (editAux id desc due tg ts).2)

/-- `TaskManager::edit_task` as a state transformer over the prompt
answers. -/
def TaskManager.edit_task (m : TaskManager) (id : Nat) (desc due tg : String) :
    Option Task × TaskManager :=
  ((editAux id desc due tg m.tasks).1,
   { m with tasks := (editAux id desc due tg m.tasks).2 })

/-- Task creation, from the `Add Task` arm of `main`'s loop: build the task
with `id = next_id`, `completed = false`, normalised tags and
`due_date = due.parse().ok()`; then `next_id += 1` and `add_task` (push at
the end). -/
def TaskManager.create (m : TaskManager) (desc due tg : String) :
    Task × TaskManager :=
  let task : Task :=
    { id := m.next_id, description := desc, completed := false,
      tags := normalizeTags tg, due_date := parseDate due }
  (task, { tasks := m.tasks ++ [task], next_id := m.next_id + 1 })

/-! ## Listing / querying (`TaskManager::list_tasks`) -/

/-- The filter test of `list_tasks`: a task is skipped (`continue`) when the
filter is present, its lowercased form is not an exact element of the task's
tags, and it is not a case-insensitive substring of the description.
`listed` returns, in order, the tasks the loop displays. -/
def listed (filter : Option String) : List Task → List Task
  | [] => []
  | t :: ts =>
    match filter with
    | some f =>
      if ! t.tags.contains (toLowerStr f)
          && ! containsList (toLowerStr t.description).data (toLowerStr f).data then
        listed filter ts
      else t :: listed filter ts
    | none => t :: listed filter ts

/-- `TaskManager::list_tasks` (read-only: `&self`), as the sequence of tasks
it displays. -/
def TaskManager.list_tasks (m : TaskManager) (filter : Option String) : List Task :=
  listed filter m.tasks

/-- The four display states the status glyph of `list_tasks` distinguishes. -/
inductive DisplayStatus where
  | Done
  | Overdue
  | DueToday
  | Pending
deriving DecidableEq, Repr

/-- The status classification inside `list_tasks`: completed tasks get the
green check; otherwise `Some(due) if due < today` is the red overdue marker,
`Some(due) if due == today` the yellow due-today marker, and anything else
the plain pending marker. -/
def statusOf (t : Task) (today : NaiveDate) : DisplayStatus :=
  if t.completed then .Done
  else
    match t.due_date with
    | some due =>
      if NaiveDate.lt due today then .Overdue
      else if due = today then .DueToday
      else .Pending
    | none => .Pending

/-! ## Persistence (`save` / `load` via serde_json)

The serde layer is modelled on a JSON value AST.  `serde_json`'s
`to_string_pretty` / `from_str` pair is a faithful printer/parser for this
AST, so the text layer is treated as the identity correspondence on `Json`
values; `save` produces the file's JSON value and `load` consumes the result
of reading the file. -/

/-- JSON values (`serde_json::Value`; the program only ever produces
numbers that are `usize` ids/counters, so numbers are naturals). -/
inductive Json where
  | null
  | bool (b : Bool)
  | num (n : Nat)
  | str (s : String)
  | arr (elems : List Json)
  | obj (fields : List (String × Json))

/-- Serde serialisation of `chrono::NaiveDate`: the `%Y-%m-%d` string. -/
def NaiveDate.toJson (d : NaiveDate) : Json := .str (dateStr d)

/-- Serde serialisation of `Task` derived by `#[derive(Serialize)]`: an
object with the fields in declaration order; `Option` is `null` or the
value. -/
def Task.toJson (t : Task) : Json :=
  .obj [("id", .num t.id),
        ("description", .str t.description),
        ("completed", .bool t.completed),
        ("tags", .arr (t.tags.map Json.str)),
        ("due_date", match t.due_date with
                     | none => Json.null
                     | some d => d.toJson)]

/-- Serde serialisation of `TaskManager` derived by
`#[derive(Serialize)]`. -/
def TaskManager.toJson (m : TaskManager) : Json :=
  .obj [("tasks", .arr (m.tasks.map Task.toJson)),
        ("next_id", .num m.next_id)]

/-- Field access in a serde-produced JSON object: first binding wins (serde
rejects duplicate fields, and the serialiser never emits them). -/
def lookupField (name : String) : List (String × Json) → Option Json
  | [] => none
  | (k, v) :: rest => if k = name then some v else lookupField name rest

/-- Serde deserialisation of a string field. -/
def decodeString : Json → Option String
  | .str s => some s
  | _ => none

/-- Serde deserialisation of a `usize` field. -/
def decodeNat : Json → Option Nat
  | .num n => some n
  | _ => none

/-- Serde deserialisation of a `bool` field. -/
def decodeBool : Json → Option Bool
  | .bool b => some b
  | _ => none

/-- Serde deserialisation of a `Vec<String>` field. -/
def decodeStrings : List Json → Option (List String)
  | [] => some []
  | j :: js =>
    match decodeString j with
    | some s => (decodeStrings js).map (s :: ·)
    | none => none

/-- Serde deserialisation of `Option<NaiveDate>`: `null` is `None`, a string
is parsed as an ISO date (a malformed one is a deserialisation error). -/
def decodeDueDate : Json → Option (Option NaiveDate)
  | .null => some none
  | .str s => (parseDate s).map some
  | _ => none

/-- Serde deserialisation of `Task` derived by `#[derive(Deserialize)]`:
requires an object and all four fields to decode. -/
def Task.fromJson (j : Json) : Option Task :=
  match j with
  | .obj fields => do
    let id ← decodeNat (← lookupField "id" fields)
    let description ← decodeString (← lookupField "description" fields)
    let completed ← decodeBool (← lookupField "completed" fields)
    let tags ← match lookupField "tags" fields with
               | some (.arr js) => decodeStrings js
               | _ => none
    let due_date ← decodeDueDate (← lookupField "due_date" fields)
    pure { id, description, completed, tags, due_date }
  | _ => none

/-- Serde deserialisation of a `Vec<Task>`. -/
def decodeTasks : List Json → Option (List Task)
  | [] => some []
  | j :: js =>
    match Task.fromJson j with
    | some t => (decodeTasks js).map (t :: ·)
    | none => none

/-- Serde deserialisation of `TaskManager`. -/
def TaskManager.fromJson (j : Json) : Option TaskManager :=
  match j with
  | .obj fields => do
    let tasks ← match lookupField "tasks" fields with
                | some (.arr js) => decodeTasks js
                | _ => none
    let next_id ← decodeNat (← lookupField "next_id" fields)
    pure { tasks, next_id }
  | _ => none

/-- `TaskManager::save`: serialise the whole manager and overwrite the file
with it; the produced file contents are the returned JSON value. -/
def TaskManager.save (m : TaskManager) : Json := m.toJson

/-- `TaskManager::load`.  The argument is what the filesystem shows at the
path: `none` when `path.exists()` is false (then a fresh
`TaskManager::new` is returned), `some (.error e)` when
`fs::read_to_string` fails (the `?` propagates the error), and
`some (.ok j)` for successfully read contents, which must deserialise (a
`serde_json::from_str` failure propagates as an error). -/
def TaskManager.load (file : Option (Except String Json)) :
    Except String TaskManager :=
  match file with
  | none => .ok TaskManager.new
  | some (.error e) => .error e
  | some (.ok j) =>
    match TaskManager.fromJson j with
    | some m => .ok m
    | none => .error "could not deserialize tasks file"

/-! ## Reachable stores: traces of the interactive loop's mutations -/

/-- One mutating operation of the interactive loop, with the user's prompt
answers as payload. -/
inductive Op where
  | create (desc due tg : String)
  | complete (id : Nat)
  | delete (id : Nat)
  | edit (id : Nat) (desc due tg : String)
deriving DecidableEq, Repr

/-- Apply one operation to the store, discarding the reported result. -/
def applyOp (m : TaskManager) : Op → TaskManager
  | .create desc due tg => (m.create desc due tg).2
  | .complete id => (m.complete_task id).2
  | .delete id => (m.delete_task id).2
  | .edit id desc due tg => (m.edit_task id desc due tg).2

/-- Run a trace of operations from a given store. -/
def runFrom (m : TaskManager) (ops : List Op) : TaskManager :=
  ops.foldl applyOp m

/-- The store reached from a fresh `TaskManager::new` by a trace. -/
def run (ops : List Op) : TaskManager := runFrom TaskManager.new ops

/-- The ids handed out by the `create` steps of a trace starting at `m`, in
order: each `create` assigns the current `next_id`. -/
def newIds (m : TaskManager) : List Op → List Nat
  | [] => []
  | op :: rest =>
    match op with
    | .create _ _ _ => m.next_id :: newIds (applyOp m op) rest
    | _ => newIds (applyOp m op) rest

/-- The store invariant maintained by every operation: all task ids are
below `next_id`, task ids are pairwise distinct, and every stored due date
is calendar-valid (it came from a successful parse). -/
def Inv (m : TaskManager) : Prop :=
  (∀ t ∈ m.tasks, t.id < m.next_id) ∧
  (m.tasks.map Task.id).Nodup ∧
  (∀ t ∈ m.tasks, ∀ d, t.due_date = some d → d.Valid)

/-! ## Helper lemmas: the find-and-update bodies -/

theorem map_ite_eq_self (ts : List Task) (id : Nat) (f : Task → Task)
    (h : ∀ u ∈ ts, u.id = id → f u = u) :
    (ts.map fun u => if u.id = id then f u else u) = ts := by
  induction ts with
  | nil => rfl
  | cons a ts ih =>
    by_cases ha : a.id = id
    · simp [ha, h a (List.mem_cons_self a ts) ha,
        ih fun u hu => h u (List.mem_cons_of_mem a hu)]
    · simp [ha, ih fun u hu => h u (List.mem_cons_of_mem a hu)]

theorem eq_of_mem_of_id_eq (ts : List Task) (hnd : (ts.map Task.id).Nodup)
    (t u : Task) (ht : t ∈ ts) (hu : u ∈ ts) (h : t.id = u.id) : t = u :=
  List.inj_on_of_nodup_map hnd ht hu h

theorem completeAux_not_found (id : Nat) (ts : List Task)
    (h : ∀ t ∈ ts, t.id ≠ id) : completeAux id ts = (none, ts) := by
  induction ts with
  | nil => rfl
  | cons a ts ih =>
    simp [completeAux, h a (List.mem_cons_self a ts),
      ih fun u hu => h u (List.mem_cons_of_mem a hu)]

theorem completeAux_found (id : Nat) (ts : List Task)
    (hnd : (ts.map Task.id).Nodup) (t : Task) (ht : t ∈ ts) (hid : t.id = id) :
    completeAux id ts =
      (some { t with completed := true },
       ts.map fun u => if u.id = id then { u with completed := true } else u) := by
  induction ts with
  | nil => cases ht
  | cons a ts ih =>
    simp only [List.map_cons, List.nodup_cons] at hnd
    by_cases ha : a.id = id
    · have hta : t = a := by
        rcases List.mem_cons.mp ht with h | h
        · exact h
        · have hmem : t.id ∈ ts.map Task.id := List.mem_map_of_mem Task.id h
          rw [hid, ← ha] at hmem
          exact absurd hmem hnd.1
      subst hta
      have hts : ∀ u ∈ ts, ¬ u.id = id := by
        intro u hu he
        exact hnd.1 (ha ▸ he ▸ List.mem_map_of_mem Task.id hu)
      simp [completeAux, ha, map_ite_eq_self ts id _ fun u hu he => absurd he (hts u hu)]
    · have htt : t ∈ ts := by
        rcases List.mem_cons.mp ht with h | h
        · exact absurd (h ▸ hid) ha
        · exact h
      simp [completeAux, ha, ih hnd.2 htt]

theorem deleteAux_not_found (id : Nat) (ts : List Task)
    (h : ∀ t ∈ ts, t.id ≠ id) : deleteAux id ts = (none, ts) := by
  induction ts with
  | nil => rfl
  | cons a ts ih =>
    simp [deleteAux, h a (List.mem_cons_self a ts),
      ih fun u hu => h u (List.mem_cons_of_mem a hu)]

theorem deleteAux_found (id : Nat) (ts : List Task)
    (hnd : (ts.map Task.id).Nodup) (t : Task) (ht : t ∈ ts) (hid : t.id = id) :
    deleteAux id ts = (some t, ts.filter fun u => decide (u.id ≠ id)) := by
  induction ts with
  | nil => cases ht
  | cons a ts ih =>
    simp only [List.map_cons, List.nodup_cons] at hnd
    by_cases ha : a.id = id
    · have hta : t = a := by
        rcases List.mem_cons.mp ht with h | h
        · exact h
        · have hmem : t.id ∈ ts.map Task.id := List.mem_map_of_mem Task.id h
          rw [hid, ← ha] at hmem
          exact absurd hmem hnd.1
      subst hta
      have hts : ∀ u ∈ ts, ¬ u.id = id := by
        intro u hu he
        exact hnd.1 (ha ▸ he ▸ List.mem_map_of_mem Task.id hu)
      have hf : ts.filter (fun u => ! decide (u.id = id)) = ts :=
        List.filter_eq_self.mpr fun u hu => by simpa using hts u hu
      simp [deleteAux, ha, hf]
    · have htt : t ∈ ts := by
        rcases List.mem_cons.mp ht with h | h
        · exact absurd (h ▸ hid) ha
        · exact h
      simp [deleteAux, ha, ih hnd.2 htt]

theorem deleteAux_sublist (id : Nat) (ts : List Task) :
    ((deleteAux id ts).2).Sublist ts := by
  induction ts with
  | nil => simp [deleteAux]
  | cons a ts ih =>
    by_cases ha : a.id = id
    · simp [deleteAux, ha]
    · simpa [deleteAux, ha] using List.Sublist.cons₂ a ih

theorem editAux_not_found (id : Nat) (desc due tg : String) (ts : List Task)
    (h : ∀ t ∈ ts, t.id ≠ id) : editAux id desc due tg ts = (none, ts) := by
  induction ts with
  | nil => rfl
  | cons a ts ih =>
    simp [editAux, h a (List.mem_cons_self a ts),
      ih fun u hu => h u (List.mem_cons_of_mem a hu)]

theorem editAux_found (id : Nat) (desc due tg : String) (ts : List Task)
    (hnd : (ts.map Task.id).Nodup) (t : Task) (ht : t ∈ ts) (hid : t.id = id) :
    editAux id desc due tg ts =
      (some { t with description := desc, due_date := parseDate due,
                     tags := normalizeTags tg },
       ts.map fun u =>
         if u.id = id then
           { u with description := desc, due_date := parseDate due,
                    tags := normalizeTags tg }
         else u) := by
  induction ts with
  | nil => cases ht
  | cons a ts ih =>
    simp only [List.map_cons, List.nodup_cons] at hnd
    by_cases ha : a.id = id
    · have hta : t = a := by
        rcases List.mem_cons.mp ht with h | h
        · exact h
        · have hmem : t.id ∈ ts.map Task.id := List.mem_map_of_mem Task.id h
          rw [hid, ← ha] at hmem
          exact absurd hmem hnd.1
      subst hta
      have hts : ∀ u ∈ ts, ¬ u.id = id := by
        intro u hu he
        exact hnd.1 (ha ▸ he ▸ List.mem_map_of_mem Task.id hu)
      simp [editAux, ha, map_ite_eq_self ts id _ fun u hu he => absurd he (hts u hu)]
    · have htt : t ∈ ts := by
        rcases List.mem_cons.mp ht with h | h
        · exact absurd (h ▸ hid) ha
        · exact h
      simp [editAux, ha, ih hnd.2 htt]

theorem listed_some_eq_filter (f : String) (ts : List Task) :
    listed (some f) ts = ts.filter fun t =>
      t.tags.contains (toLowerStr f)
        || containsList (toLowerStr t.description).data (toLowerStr f).data := by
  induction ts with
  | nil => rfl
  | cons t ts ih =>
    cases h1 : t.tags.contains (toLowerStr f) <;>
      cases h2 : containsList (toLowerStr t.description).data (toLowerStr f).data <;>
      simp [listed, List.filter_cons, h1, h2, ih]

/-! ## Helper lemmas: the date order is a strict total order -/

theorem date_lt_asymm (a b : NaiveDate) (h : NaiveDate.lt a b) :
    ¬ NaiveDate.lt b a := by
  rcases a with ⟨ya, ma, da⟩
  rcases b with ⟨yb, mb, db⟩
  simp only [NaiveDate.lt] at *
  omega

theorem date_lt_irrefl (a : NaiveDate) : ¬ NaiveDate.lt a a := by
  rcases a with ⟨ya, ma, da⟩
  simp only [NaiveDate.lt]
  omega

theorem date_lt_of_not_lt_of_ne (a b : NaiveDate)
    (h1 : ¬ NaiveDate.lt a b) (h2 : a ≠ b) : NaiveDate.lt b a := by
  rcases a with ⟨ya, ma, da⟩
  rcases b with ⟨yb, mb, db⟩
  simp only [NaiveDate.lt, ne_eq, NaiveDate.mk.injEq] at *
  omega

theorem listed_none (ts : List Task) : listed none ts = ts := by
  induction ts with
  | nil => rfl
  | cons t ts ih => simp [listed, ih]

/-! ## The claims -/

/-- C3: `create(description, tags, due_date)` always succeeds (it is a total
function) and produces a task with `id` equal to the store's current
`next_id`, `completed = false`, tags obtained from the comma-separated input
by trimming, lowercasing and dropping empty entries, appended at the end of
the task sequence, with `next_id` incremented by one; every stored tag is
non-empty. -/
theorem create_spec (m : TaskManager) (desc due tg : String) :
    m.create desc due tg =
      ({ id := m.next_id, description := desc, completed := false,
         tags := ((splitList ',' tg.data).map
             (fun cs => String.mk ((trimChars cs).map Char.toLower))).filter
             (fun s => ! strIsEmpty s),
         due_date := parseDate due },
       { tasks := m.tasks ++
           [{ id := m.next_id, description := desc, completed := false,
              tags := normalizeTags tg, due_date := parseDate due }],
         next_id := m.next_id + 1 }) ∧
    ∀ s ∈ (m.create desc due tg).1.tags, strIsEmpty s = false := by
  constructor
  · rfl
  · intro s hs
    have hs' : s ∈ (normalizeTags tg) := hs
    have := (List.mem_filter.mp hs').2
    simpa using this

/-- Witness for C3 at the spec's own scenario: creating
"Buy milk" with tag input "Home, Errand" stores the non-empty tag "home". -/
theorem create_spec_witness : strIsEmpty "home" = false :=
  (create_spec TaskManager.new "Buy milk" "2024-01-01" "Home, Errand").2
    "home" (by decide)

/-- C4: on a store with distinct ids, if some task has the requested id,
`complete_task` sets that task's `completed` flag to `true` and returns the
updated task, leaving every other task and `next_id` unchanged; completing
an already-completed task succeeds and changes nothing; if no task has the
id, it returns `None` and leaves the store entirely unchanged. -/
theorem complete_task_spec (m : TaskManager) (id : Nat)
    (hnd : (m.tasks.map Task.id).Nodup) :
    (∀ t ∈ m.tasks, t.id = id →
      m.complete_task id =
        (some { t with completed := true },
         { m with tasks := m.tasks.map fun u =>
             if u.id = id then { u with completed := true } else u })) ∧
    (∀ t ∈ m.tasks, t.id = id → t.completed = true →
      m.complete_task id = (some t, m)) ∧
    ((∀ t ∈ m.tasks, t.id ≠ id) → m.complete_task id = (none, m)) := by
  refine ⟨?_, ?_, ?_⟩
  · intro t ht hid
    rw [TaskManager.complete_task, completeAux_found id m.tasks hnd t ht hid]
  · intro t ht hid hc
    have h1 : ({ t with completed := true } : Task) = t := by
      cases t
      simp_all
    have h2 : (m.tasks.map fun u =>
        if u.id = id then { u with completed := true } else u) = m.tasks := by
      apply map_ite_eq_self
      intro u hu he
      have htu : t = u := eq_of_mem_of_id_eq m.tasks hnd t u ht hu (by rw [hid, he])
      rw [← htu, h1]
    rw [TaskManager.complete_task, completeAux_found id m.tasks hnd t ht hid, h1, h2]
  · intro h
    rw [TaskManager.complete_task, completeAux_not_found id m.tasks h]

/-- Witness for C4: completing the sole task of a one-task store marks it
completed and leaves the rest of the store alone. -/
theorem complete_task_spec_witness :
    (TaskManager.mk [Task.mk 1 "a" false [] none] 2).complete_task 1 =
      (some (Task.mk 1 "a" true [] none),
       TaskManager.mk [Task.mk 1 "a" true [] none] 2) := by
  have h := (complete_task_spec ⟨[⟨1, "a", false, [], none⟩], 2⟩ 1 (by decide)).1
    ⟨1, "a", false, [], none⟩ (by decide) rfl
  simpa using h

/-- C5: on a store with distinct ids, if some task has the requested id,
`delete_task` removes exactly that task and returns it, the remaining tasks
keeping their relative order (the new task list is the old one filtered, and
is always a sublist of the old one); if no task has the id, it returns
`None` (and the store is unchanged). -/
theorem delete_task_spec (m : TaskManager) (id : Nat)
    (hnd : (m.tasks.map Task.id).Nodup) :
    (∀ t ∈ m.tasks, t.id = id →
      m.delete_task id =
        (some t,
         { m with tasks := m.tasks.filter fun u => decide (u.id ≠ id) })) ∧
    ((m.delete_task id).2.tasks.Sublist m.tasks) ∧
    ((∀ t ∈ m.tasks, t.id ≠ id) → m.delete_task id = (none, m)) := by
  refine ⟨?_, ?_, ?_⟩
  · intro t ht hid
    rw [TaskManager.delete_task, deleteAux_found id m.tasks hnd t ht hid]
  · exact deleteAux_sublist id m.tasks
  · intro h
    rw [TaskManager.delete_task, deleteAux_not_found id m.tasks h]

/-- Witness for C5: deleting the first of two tasks returns it and keeps the
other in place. -/
theorem delete_task_spec_witness :
    (TaskManager.mk [Task.mk 1 "a" false [] none, Task.mk 2 "b" false [] none] 3).delete_task 1 =
      (some (Task.mk 1 "a" false [] none),
       TaskManager.mk [Task.mk 2 "b" false [] none] 3) := by
  have h := (delete_task_spec
      ⟨[⟨1, "a", false, [], none⟩, ⟨2, "b", false, [], none⟩], 3⟩ 1 (by decide)).1
    ⟨1, "a", false, [], none⟩ (by decide) rfl
  simpa using h

/-- C6: on a store with distinct ids, if some task has the requested id,
`edit_task` replaces that task's description, tags (re-normalised) and due
date, leaving its `completed` flag, its `id`, every other task and `next_id`
unchanged; an empty due-date input parses to `none`, clearing the field; if
no task has the id, it returns `None`. -/
theorem edit_task_spec (m : TaskManager) (id : Nat) (desc due tg : String)
    (hnd : (m.tasks.map Task.id).Nodup) :
    (∀ t ∈ m.tasks, t.id = id →
      m.edit_task id desc due tg =
        (some { t with description := desc, due_date := parseDate due,
                       tags := normalizeTags tg },
         { m with tasks := m.tasks.map fun u =>
             if u.id = id then
               { u with description := desc, due_date := parseDate due,
                        tags := normalizeTags tg }
             else u })) ∧
    parseDate "" = none ∧
    ((∀ t ∈ m.tasks, t.id ≠ id) → m.edit_task id desc due tg = (none, m)) := by
  refine ⟨?_, rfl, ?_⟩
  · intro t ht hid
    rw [TaskManager.edit_task, editAux_found id desc due tg m.tasks hnd t ht hid]
  · intro h
    rw [TaskManager.edit_task, editAux_not_found id desc due tg m.tasks h]

/-- Witness for C6: editing a completed task with an empty due-date input
replaces description and tags, clears the due date and keeps the
`completed` flag. -/
theorem edit_task_spec_witness :
    (TaskManager.mk [Task.mk 1 "a" true ["x"] (some ⟨2024, 1, 1⟩)] 2).edit_task 1 "b" "" "Y" =
      (some (Task.mk 1 "b" true ["y"] none),
       TaskManager.mk [Task.mk 1 "b" true ["y"] none] 2) := by
  have h := (edit_task_spec ⟨[⟨1, "a", true, ["x"], some ⟨2024, 1, 1⟩⟩], 2⟩ 1 "b" "" "Y"
      (by decide)).1 ⟨1, "a", true, ["x"], some ⟨2024, 1, 1⟩⟩ (by decide) rfl
  simpa using h


/-- C7: with a filter string, `list_tasks` displays, in store order, exactly
the tasks whose tag sequence contains the lowercased filter as an exact
element or whose description contains the filter as a case-insensitive
substring, and excludes all others; with no filter it displays all tasks in
store order.  (`list_tasks` takes `&self` and is pure in the model, so it
mutates nothing.) -/
theorem list_tasks_spec (m : TaskManager) (f : String) :
    m.list_tasks none = m.tasks ∧
    m.list_tasks (some f) = m.tasks.filter fun t =>
      t.tags.contains (toLowerStr f)
        || containsList (toLowerStr t.description).data (toLowerStr f).data :=
  ⟨listed_none m.tasks, listed_some_eq_filter f m.tasks⟩

/-- C8: the display-status classification assigns exactly one of four
states: `Done` whenever `completed` is true, regardless of the due date;
`Overdue` when not completed and the due date is strictly before today;
`DueToday` when not completed and the due date equals today; `Pending` when
not completed and the due date is absent or strictly after today. -/
theorem statusOf_spec (t : Task) (today : NaiveDate) :
    (statusOf t today = .Done ↔ t.completed = true) ∧
    (statusOf t today = .Overdue ↔
      t.completed = false ∧ ∃ d, t.due_date = some d ∧ NaiveDate.lt d today) ∧
    (statusOf t today = .DueToday ↔
      t.completed = false ∧ t.due_date = some today) ∧
    (statusOf t today = .Pending ↔
      t.completed = false ∧
        (t.due_date = none ∨ ∃ d, t.due_date = some d ∧ NaiveDate.lt today d)) := by
  cases hc : t.completed
  · cases hd : t.due_date with
    | none => simp [statusOf, hc, hd, date_lt_irrefl]
    | some d =>
      by_cases hlt : NaiveDate.lt d today
      · have hna : ¬ NaiveDate.lt today d := date_lt_asymm d today hlt
        have hne : ¬ d = today := fun h => date_lt_irrefl today (h ▸ hlt)
        simp [statusOf, hc, hd, hlt, hna, hne]
      · by_cases heq : d = today
        · subst heq
          simp [statusOf, hc, hd, hlt, date_lt_irrefl]
        · have hgt : NaiveDate.lt today d := date_lt_of_not_lt_of_ne d today hlt heq
          simp [statusOf, hc, hd, hlt, heq, hgt]
  · simp [statusOf, hc]

/-- C10: when no task matches the requested id, `delete_task` and
`edit_task` both return `None` and leave the store entirely unchanged (same
task sequence, same `next_id`) — the same atomicity-on-error that
`complete_task` has. -/
theorem notfound_frame_spec (m : TaskManager) (id : Nat) (desc due tg : String)
    (h : ∀ t ∈ m.tasks, t.id ≠ id) :
    m.delete_task id = (none, m) ∧ m.edit_task id desc due tg = (none, m) := by
  constructor
  · rw [TaskManager.delete_task, deleteAux_not_found id m.tasks h]
  · rw [TaskManager.edit_task, editAux_not_found id desc due tg m.tasks h]

/-- Witness for C10: deleting or editing the missing id 7 in a one-task
store is a no-op returning `None`. -/
theorem notfound_frame_spec_witness :
    (TaskManager.mk [Task.mk 1 "a" false [] none] 2).delete_task 7 =
      (none, TaskManager.mk [Task.mk 1 "a" false [] none] 2) ∧
    (TaskManager.mk [Task.mk 1 "a" false [] none] 2).edit_task 7 "b" "" "" =
      (none, TaskManager.mk [Task.mk 1 "a" false [] none] 2) :=
  notfound_frame_spec ⟨[⟨1, "a", false, [], none⟩], 2⟩ 7 "b" "" "" (by decide)

/-! ## Lemmas for the trace invariant (C2) -/

theorem completeAux_map_id (id : Nat) (ts : List Task) :
    ((completeAux id ts).2).map Task.id = ts.map Task.id := by
  induction ts with
  | nil => rfl
  | cons a ts ih => by_cases ha : a.id = id <;> simp [completeAux, ha, ih]

theorem completeAux_map_due (id : Nat) (ts : List Task) :
    ((completeAux id ts).2).map Task.due_date = ts.map Task.due_date := by
  induction ts with
  | nil => rfl
  | cons a ts ih => by_cases ha : a.id = id <;> simp [completeAux, ha, ih]

theorem editAux_map_id (id : Nat) (desc due tg : String) (ts : List Task) :
    ((editAux id desc due tg ts).2).map Task.id = ts.map Task.id := by
  induction ts with
  | nil => rfl
  | cons a ts ih => by_cases ha : a.id = id <;> simp [editAux, ha, ih]

theorem mem_editAux (id : Nat) (desc due tg : String) (ts : List Task)
    (t' : Task) (h : t' ∈ (editAux id desc due tg ts).2) :
    t' ∈ ts ∨ t'.due_date = parseDate due := by
  induction ts with
  | nil => simp [editAux] at h
  | cons a ts ih =>
    by_cases ha : a.id = id
    · simp only [editAux, ha, if_pos, List.mem_cons] at h
      rcases h with h | h
      · right
        rw [h]
      · left
        exact List.mem_cons_of_mem a h
    · simp only [editAux, ha, if_neg, ite_false, List.mem_cons] at h
      rcases h with h | h
      · left
        rw [h]
        exact List.mem_cons_self a ts
      · rcases ih h with h' | h'
        · exact Or.inl (List.mem_cons_of_mem a h')
        · exact Or.inr h'

theorem parseDate_valid {s : String} {d : NaiveDate}
    (h : parseDate s = some d) : d.Valid := by
  unfold parseDate at h
  split at h
  · split at h
    · split at h
      · rename_i hv
        cases h
        exact hv
      · cases h
    · cases h
  · cases h

theorem applyOp_next_id (m : TaskManager) (op : Op) :
    m.next_id ≤ (applyOp m op).next_id := by
  cases op with
  | create desc due tg =>
    simp [applyOp, TaskManager.create]
  | complete id => simp [applyOp, TaskManager.complete_task]
  | delete id => simp [applyOp, TaskManager.delete_task]
  | edit id desc due tg => simp [applyOp, TaskManager.edit_task]

theorem runFrom_nil (m : TaskManager) : runFrom m [] = m := rfl

theorem runFrom_cons (m : TaskManager) (op : Op) (ops : List Op) :
    runFrom m (op :: ops) = runFrom (applyOp m op) ops := rfl

theorem runFrom_next_id (ops : List Op) :
    ∀ m : TaskManager, m.next_id ≤ (runFrom m ops).next_id := by
  induction ops with
  | nil => exact fun m => le_refl _
  | cons op ops ih =>
    intro m
    rw [runFrom_cons]
    exact le_trans (applyOp_next_id m op) (ih (applyOp m op))

theorem inv_applyOp (m : TaskManager) (op : Op) (h : Inv m) :
    Inv (applyOp m op) := by
  obtain ⟨hb, hnd, hv⟩ := h
  cases op with
  | create desc due tg =>
    refine ⟨?_, ?_, ?_⟩
    · intro t ht
      simp only [applyOp, TaskManager.create, List.mem_append,
        List.mem_singleton] at ht ⊢
      rcases ht with ht | ht
      · exact lt_trans (hb t ht) (Nat.lt_succ_self _)
      · rw [ht]
        exact Nat.lt_succ_self _
    · simp only [applyOp, TaskManager.create, List.map_append, List.map_cons,
        List.map_nil]
      rw [List.nodup_append]
      refine ⟨hnd, List.nodup_singleton _, ?_⟩
      intro x hx hx2
      simp only [List.mem_singleton] at hx2
      rcases List.mem_map.mp hx with ⟨t, ht, he⟩
      have := hb t ht
      omega
    · intro t ht d hd
      simp only [applyOp, TaskManager.create, List.mem_append,
        List.mem_singleton] at ht
      rcases ht with ht | ht
      · exact hv t ht d hd
      · rw [ht] at hd
        exact parseDate_valid hd
  | complete id =>
    refine ⟨?_, ?_, ?_⟩
    · intro t ht
      have hid : t.id ∈ ((completeAux id m.tasks).2).map Task.id :=
        List.mem_map_of_mem Task.id ht
      rw [completeAux_map_id] at hid
      rcases List.mem_map.mp hid with ⟨u, hu, he⟩
      simpa [applyOp, TaskManager.complete_task, ← he] using hb u hu
    · simpa [applyOp, TaskManager.complete_task, completeAux_map_id] using hnd
    · intro t ht d hd
      have hdue : t.due_date ∈ ((completeAux id m.tasks).2).map Task.due_date :=
        List.mem_map_of_mem Task.due_date ht
      rw [completeAux_map_due] at hdue
      rcases List.mem_map.mp hdue with ⟨u, hu, he⟩
      exact hv u hu d (he.symm ▸ hd)
  | delete id =>
    have hsub : ((deleteAux id m.tasks).2).Sublist m.tasks :=
      deleteAux_sublist id m.tasks
    refine ⟨?_, ?_, ?_⟩
    · intro t ht
      exact hb t (hsub.subset ht)
    · exact List.Nodup.sublist (hsub.map Task.id) hnd
    · intro t ht d hd
      exact hv t (hsub.subset ht) d hd
  | edit id desc due tg =>
    refine ⟨?_, ?_, ?_⟩
    · intro t ht
      have hid : t.id ∈ ((editAux id desc due tg m.tasks).2).map Task.id :=
        List.mem_map_of_mem Task.id ht
      rw [editAux_map_id] at hid
      rcases List.mem_map.mp hid with ⟨u, hu, he⟩
      simpa [applyOp, TaskManager.edit_task, ← he] using hb u hu
    · simpa [applyOp, TaskManager.edit_task, editAux_map_id] using hnd
    · intro t ht d hd
      rcases mem_editAux id desc due tg m.tasks t ht with h' | h'
      · exact hv t h' d hd
      · rw [h'] at hd
        exact parseDate_valid hd

theorem inv_runFrom (ops : List Op) :
    ∀ m : TaskManager, Inv m → Inv (runFrom m ops) := by
  induction ops with
  | nil => exact fun m h => h
  | cons op ops ih =>
    intro m h
    rw [runFrom_cons]
    exact ih (applyOp m op) (inv_applyOp m op h)

theorem inv_new : Inv TaskManager.new := by
  refine ⟨?_, ?_, ?_⟩ <;> simp [TaskManager.new]

theorem inv_run (ops : List Op) : Inv (run ops) :=
  inv_runFrom ops TaskManager.new inv_new

theorem newIds_bounds (ops : List Op) :
    ∀ (m : TaskManager), ∀ i ∈ newIds m ops,
      m.next_id ≤ i ∧ i < (runFrom m ops).next_id := by
  induction ops with
  | nil =>
    intro m i hi
    simp [newIds] at hi
  | cons op ops ih =>
    intro m i hi
    rw [runFrom_cons]
    cases op with
    | create desc due tg =>
      simp only [newIds, List.mem_cons] at hi
      rcases hi with hi | hi
      · subst hi
        refine ⟨le_refl _, ?_⟩
        have h1 : (applyOp m (Op.create desc due tg)).next_id = m.next_id + 1 := by
          simp [applyOp, TaskManager.create]
        have h2 := runFrom_next_id ops (applyOp m (Op.create desc due tg))
        omega
      · have h3 := ih (applyOp m (Op.create desc due tg)) i hi
        have h1 : (applyOp m (Op.create desc due tg)).next_id = m.next_id + 1 := by
          simp [applyOp, TaskManager.create]
        omega
    | complete id =>
      have h3 := ih (applyOp m (Op.complete id)) i (by simpa [newIds] using hi)
      have h1 : (applyOp m (Op.complete id)).next_id = m.next_id := by
        simp [applyOp, TaskManager.complete_task]
      omega
    | delete id =>
      have h3 := ih (applyOp m (Op.delete id)) i (by simpa [newIds] using hi)
      have h1 : (applyOp m (Op.delete id)).next_id = m.next_id := by
        simp [applyOp, TaskManager.delete_task]
      omega
    | edit id desc due tg =>
      have h3 := ih (applyOp m (Op.edit id desc due tg)) i (by simpa [newIds] using hi)
      have h1 : (applyOp m (Op.edit id desc due tg)).next_id = m.next_id := by
        simp [applyOp, TaskManager.edit_task]
      omega

theorem newIds_pairwise (ops : List Op) :
    ∀ m : TaskManager, List.Pairwise (· < ·) (newIds m ops) := by
  induction ops with
  | nil =>
    intro m
    simp [newIds]
  | cons op ops ih =>
    intro m
    cases op with
    | create desc due tg =>
      simp only [newIds]
      refine List.Pairwise.cons ?_ (ih (applyOp m (Op.create desc due tg)))
      intro i hi
      have h3 := (newIds_bounds ops (applyOp m (Op.create desc due tg)) i hi).1
      have h1 : (applyOp m (Op.create desc due tg)).next_id = m.next_id + 1 := by
        simp [applyOp, TaskManager.create]
      omega
    | complete id => exact ih (applyOp m (Op.complete id))
    | delete id => exact ih (applyOp m (Op.delete id))
    | edit id desc due tg => exact ih (applyOp m (Op.edit id desc due tg))

/-- C2: along any trace of the public mutating operations from a fresh
store, the task ids in the resulting store are pairwise distinct; `next_id`
is strictly greater than every id ever assigned by a `create`; the assigned
ids are strictly increasing (so no id is ever assigned twice); and an id
deleted at some point of the trace, having been present then, is never
assigned by a later `create`. -/
theorem trace_id_spec (ops : List Op) :
    ((run ops).tasks.map Task.id).Nodup ∧
    (∀ i ∈ newIds TaskManager.new ops, i < (run ops).next_id) ∧
    List.Pairwise (· < ·) (newIds TaskManager.new ops) ∧
    (∀ pre id post, ops = pre ++ Op.delete id :: post →
      id ∈ (run pre).tasks.map Task.id →
      id ∉ newIds (run (pre ++ [Op.delete id])) post) := by
  refine ⟨(inv_run ops).2.1,
    fun i hi => (newIds_bounds ops TaskManager.new i hi).2,
    newIds_pairwise ops TaskManager.new, ?_⟩
  intro pre id post _ hid hmem
  have hlt : id < (run pre).next_id := by
    rcases List.mem_map.mp hid with ⟨t, ht, he⟩
    exact he ▸ (inv_run pre).1 t ht
  have hnext : (run (pre ++ [Op.delete id])).next_id = (run pre).next_id := by
    have : run (pre ++ [Op.delete id]) = applyOp (run pre) (Op.delete id) := by
      simp [run, runFrom, List.foldl_append]
    rw [this]
    simp [applyOp, TaskManager.delete_task]
  have hge := (newIds_bounds post (run (pre ++ [Op.delete id])) id hmem).1
  omega

/-- Witness for C2: after creating a task (id 1) and deleting it, a further
`create` in the same trace does not hand out id 1 again. -/
theorem trace_id_spec_witness :
    1 ∉ newIds (run [Op.create "a" "" "", Op.delete 1]) [Op.create "b" "" ""] :=
  (trace_id_spec [Op.create "a" "" "", Op.delete 1, Op.create "b" "" ""]).2.2.2
    [Op.create "a" "" ""] 1 [Op.create "b" "" ""] rfl (by decide)

/-- C9: loading from a nonexistent path returns a fresh empty store with
`next_id = 1` rather than an error; if the path exists, a read failure
propagates as an error, and content that does not deserialize is an error as
well — never silently swallowed. -/
theorem load_spec :
    TaskManager.load none = .ok TaskManager.new ∧
    TaskManager.new = { tasks := [], next_id := 1 } ∧
    (∀ e, TaskManager.load (some (.error e)) = .error e) ∧
    (∀ j, TaskManager.fromJson j = none →
      TaskManager.load (some (.ok j)) = .error "could not deserialize tasks file") := by
  refine ⟨rfl, rfl, fun e => rfl, fun j hj => ?_⟩
  simp [TaskManager.load, hj]

/-- Witness for C9: a failed read propagates its error, and non-decodable
content is a load error. -/
theorem load_spec_witness :
    TaskManager.load (some (.error "disk full")) = .error "disk full" ∧
    TaskManager.load (some (.ok (Json.str "garbage"))) =
      .error "could not deserialize tasks file" :=
  ⟨load_spec.2.2.1 "disk full", load_spec.2.2.2 (Json.str "garbage") rfl⟩

/-! ## Lemmas for the serialisation round trip (C1) -/

theorem digitVal_digitChar {n : Nat} (h : n < 10) :
    digitVal (digitChar n) = n := by
  interval_cases n <;> decide

theorem isDigit_digitChar {n : Nat} (h : n < 10) :
    (digitChar n).isDigit = true := by
  interval_cases n <;> decide

theorem toDigits_isDigit (n : Nat) : ∀ c ∈ toDigits n, c.isDigit = true := by
  induction n using Nat.strong_induction_on with
  | _ n ih =>
    intro c hc
    rw [toDigits] at hc
    split at hc
    · rename_i h
      simp only [List.mem_singleton] at hc
      rw [hc]
      exact isDigit_digitChar h
    · rename_i h
      rw [List.mem_append] at hc
      rcases hc with hc | hc
      · exact ih (n / 10) (Nat.div_lt_self (by omega) (by omega)) c hc
      · simp only [List.mem_singleton] at hc
        rw [hc]
        exact isDigit_digitChar (Nat.mod_lt n (by omega))

theorem toDigits_ne_nil (n : Nat) : toDigits n ≠ [] := by
  rw [toDigits]
  split <;> simp

theorem foldl_toDigits (n : Nat) :
    ∀ a : Nat, (toDigits n).foldl (fun a c => a * 10 + digitVal c) a =
      a * 10 ^ (toDigits n).length + n := by
  induction n using Nat.strong_induction_on with
  | _ n ih =>
    intro a
    rw [toDigits]
    split
    · rename_i h
      simp [digitVal_digitChar h]
    · rename_i h
      rw [List.foldl_append, ih (n / 10) (Nat.div_lt_self (by omega) (by omega)) a]
      have hm : digitVal (digitChar (n % 10)) = n % 10 :=
        digitVal_digitChar (Nat.mod_lt n (by omega))
      simp only [List.foldl_cons, List.foldl_nil, List.length_append,
        List.length_singleton, hm, pow_succ]
      have key : (a * 10 ^ (toDigits (n / 10)).length + n / 10) * 10 + n % 10 =
          a * (10 ^ (toDigits (n / 10)).length * 10) + (n / 10 * 10 + n % 10) := by
        ring
      rw [key]
      congr 1
      omega

theorem parseNatList_pad (k n : Nat) :
    parseNatList (List.replicate k '0' ++ toDigits n) = some n := by
  have hdig : ∀ c ∈ List.replicate k '0' ++ toDigits n, c.isDigit = true := by
    intro c hc
    rcases List.mem_append.mp hc with hc | hc
    · rw [List.eq_of_mem_replicate hc]
      decide
    · exact toDigits_isDigit n c hc
  have hne : ¬ (List.replicate k '0' ++ toDigits n).isEmpty = true := by
    simp [List.isEmpty_iff, toDigits_ne_nil n]
  have hz : ∀ j, (List.replicate j '0').foldl (fun a c => a * 10 + digitVal c) 0 = 0 := by
    intro j
    induction j with
    | zero => rfl
    | succ j ihj => simpa [List.replicate_succ, digitVal] using ihj
  unfold parseNatList
  rw [if_neg]
  · rw [List.foldl_append, hz k, foldl_toDigits n 0]
    simp
  · simp only [Bool.or_eq_true, not_or]
    refine ⟨hne, ?_⟩
    simp only [List.any_eq_true, not_exists]
    intro c
    rw [not_and]
    intro hc
    simp [hdig c hc]

theorem splitList_not_mem {sep : Char} {cs : List Char} (h : sep ∉ cs) :
    splitList sep cs = [cs] := by
  induction cs with
  | nil => rfl
  | cons c cs ih =>
    have hc : ¬ (c == sep) = true := by
      simp only [beq_iff_eq]
      intro he
      exact h (he ▸ List.mem_cons_self c cs)
    rw [splitList, ih fun hm => h (List.mem_cons_of_mem c hm)]
    simp [hc]

theorem splitList_append {sep : Char} {a rest : List Char} (h : sep ∉ a) :
    splitList sep (a ++ sep :: rest) = a :: splitList sep rest := by
  induction a with
  | nil => simp [splitList]
  | cons c a ih =>
    have hc : ¬ (c == sep) = true := by
      simp only [beq_iff_eq]
      intro he
      exact h (he ▸ List.mem_cons_self c a)
    rw [List.cons_append, splitList, ih fun hm => h (List.mem_cons_of_mem c hm)]
    simp [hc]

theorem not_mem_dash_padNum (w n : Nat) : '-' ∉ padNum w n := by
  intro h
  rcases List.mem_append.mp h with h | h
  · have := List.eq_of_mem_replicate h
    simp at this
  · have := toDigits_isDigit n '-' h
    simp at this

theorem parseNatList_padNum (w n : Nat) : parseNatList (padNum w n) = some n :=
  parseNatList_pad (w - (toDigits n).length) n

theorem parseDate_dateStr {d : NaiveDate} (h : d.Valid) :
    parseDate (dateStr d) = some d := by
  obtain ⟨y, mo, dy⟩ := d
  unfold parseDate
  rw [show (dateStr ⟨y, mo, dy⟩).data
      = (padNum 4 y ++ '-' :: padNum 2 mo) ++ '-' :: padNum 2 dy from rfl,
    List.append_assoc, List.cons_append]
  rw [splitList_append (not_mem_dash_padNum 4 y),
    splitList_append (not_mem_dash_padNum 2 mo),
    splitList_not_mem (not_mem_dash_padNum 2 dy)]
  simp only [parseNatList_padNum]
  simp [h]

theorem decodeStrings_map (l : List String) :
    decodeStrings (l.map Json.str) = some l := by
  induction l with
  | nil => rfl
  | cons s l ih => simp [decodeStrings, decodeString, ih]

theorem Task_fromJson_toJson (t : Task)
    (h : ∀ d, t.due_date = some d → d.Valid) :
    Task.fromJson t.toJson = some t := by
  cases t with
  | mk id desc comp tags due =>
    cases due with
    | none =>
      simp [Task.toJson, Task.fromJson, lookupField, decodeNat, decodeString,
        decodeBool, decodeStrings_map, decodeDueDate]
    | some d =>
      have hv : d.Valid := h d rfl
      simp [Task.toJson, Task.fromJson, lookupField, decodeNat, decodeString,
        decodeBool, decodeStrings_map, decodeDueDate, NaiveDate.toJson,
        parseDate_dateStr hv]

theorem decodeTasks_map (ts : List Task)
    (h : ∀ t ∈ ts, ∀ d, t.due_date = some d → d.Valid) :
    decodeTasks (ts.map Task.toJson) = some ts := by
  induction ts with
  | nil => rfl
  | cons t ts ih =>
    rw [List.map_cons, decodeTasks,
      Task_fromJson_toJson t (h t (List.mem_cons_self t ts)),
      ih fun u hu => h u (List.mem_cons_of_mem t hu)]
    rfl

theorem TaskManager_fromJson_toJson (m : TaskManager)
    (h : ∀ t ∈ m.tasks, ∀ d, t.due_date = some d → d.Valid) :
    TaskManager.fromJson m.toJson = some m := by
  simp [TaskManager.toJson, TaskManager.fromJson, lookupField,
    decodeTasks_map m.tasks h, decodeNat]

/-- C1: for every store reachable from a fresh store by the public mutating
operations, serialising it with `save` and deserialising the result with
`load` yields exactly the same store — same tasks (ids, descriptions,
completed flags, tag sequences, due dates) and same `next_id`. -/
theorem save_load_roundtrip (ops : List Op) :
    TaskManager.load (some (.ok ((run ops).save))) = .ok (run ops) := by
  simp [TaskManager.load, TaskManager.save,
    TaskManager_fromJson_toJson (run ops) (inv_run ops).2.2]

end PlanSync
